import Mathlib

set_option maxHeartbeats 1000000

/-!
Shallow embedding of the WAD tree core (`src-tauri/src/core/wad/tree/mod.rs`).

Rust `&str` / `Arc<str>` values are embedded as `List Char` (named `Str`),
`u64` hashes as `Nat` (no arithmetic is performed on them, only equality
tests and hexadecimal rendering, so no modular reduction is needed),
`Uuid` as `Nat` with the nil UUID embedded as `0`, `IndexMap` as an
insertion-ordered association list, and fallible Rust functions returning
`Result` as Lean functions returning `Except`.

The `item` and `utils` submodules of the tree core are declared in
`mod.rs` (`mod item; mod utils;`) but their sources are not part of the
repository snapshot; the definitions below that embed them are modelled
from the specification and are marked `Modelled from the spec:` in their
doc comments.  Everything else is translated directly from `mod.rs`.
-/

/-- Embedding of Rust string slices: a list of characters. -/
abbrev Str := List Char

/-- Embedding of `WadChunk` restricted to the data the tree core reads:
its 64-bit `path_hash`. -/
structure WadChunk where
  path_hash : Nat
deriving DecidableEq

/-- Embedding of `WadHashtable` at its interface boundary: an ordered
association list from a 64-bit path hash to the resolved path string,
queried by exact hash match (`hashtable.items().get(&path_hash)`). -/
abbrev WadHashtable := List (Nat × Str)

/-- Lookup by exact key, first match wins (a real hash map has unique
keys, for which first-match lookup coincides with map lookup). -/
def htGet : WadHashtable → Nat → Option Str
  | [], _ => none
  | (k, v) :: rest, h => if k = h then some v else htGet rest h

/-- Embedding of `WadTreeError` (`mod.rs`, lines 27-37). -/
inductive WadTreeError where
  | invalidItemName (chunk_path : Nat)
  | itemCreationFailure (item_path : Str)
  | existingFile (file_path : Str)
deriving DecidableEq

/-- Modelled from the spec: the `WadTreeItem` tagged union from the
missing `item` submodule.  A File is a leaf carrying the chunk's original
`path_hash`; a Folder owns an insertion-ordered mapping from key to child
item.  The key of a child equals its resolved name, so the key is stored
alongside the child in the association list.  Node identity (a UUID
freshly minted at creation) is not carried: no specified behaviour of the
tree core depends on an interior node's identity. -/
inductive WadTreeItem where
  | file (name path : Str) (path_hash : Nat)
  | folder (name path : Str) (items : List (Str × WadTreeItem))

instance : Inhabited WadTreeItem := ⟨.file [] [] 0⟩

/-- `name()` of an item. -/
def WadTreeItem.name : WadTreeItem → Str
  | .file n _ _ => n
  | .folder n _ _ => n

/-- `path()` of an item. -/
def WadTreeItem.path : WadTreeItem → Str
  | .file _ p _ => p
  | .folder _ p _ => p

/-- Modelled from the spec: only the tree root reports `is_root() == true`;
interior items (folders and files) report `false`. -/
def WadTreeItem.is_root (_ : WadTreeItem) : Bool := false

/-- Embedding of Rust `str::split('/')`: always returns at least one
component; `""` splits to `[""]`, `"/b"` to `["", "b"]`, `"a/"` to
`["a", ""]`. -/
def splitSlash : Str → List Str
  | [] => [[]]
  | c :: rest =>
    match splitSlash rest with
    | [] => [[]]
    | s :: ss => if c = '/' then [] :: s :: ss else (c :: s) :: ss

/-- Modelled from the spec: a child's full path is the `/`-joined sequence
of ancestor names down to itself — `parent.path + "/" + component` for a
non-root parent, while the root (`is_root() == true`, never itself a
child) contributes no name and no separator, so its children's paths are
just their components. -/
def joinPath (isRoot : Bool) (parent comp : Str) : Str :=
  if isRoot then comp else parent ++ '/' :: comp

/-- One lowercase hexadecimal digit, as produced by Rust's `{:x}`
formatting. -/
def hexChar : Nat → Char
  | 0 => '0' | 1 => '1' | 2 => '2' | 3 => '3' | 4 => '4'
  | 5 => '5' | 6 => '6' | 7 => '7' | 8 => '8' | 9 => '9'
  | 10 => 'a' | 11 => 'b' | 12 => 'c' | 13 => 'd' | 14 => 'e' | 15 => 'f'
  | _ => '0'

/-- Fuel-driven digit accumulator for `hexDigits`, mirroring the shape of
the standard most-significant-first digit expansion. -/
def hexDigitsAux : Nat → Nat → Str → Str
  | 0, _, acc => acc
  | fuel + 1, n, acc =>
    let acc2 := hexChar (n % 16) :: acc
    if n / 16 = 0 then acc2 else hexDigitsAux fuel (n / 16) acc2

/-- The lowercase hexadecimal digits of `n`, most significant first, with
no padding: the digits Rust's `format!("{:#0x}", n)` writes after the
literal `0x` prefix (the `0` fill flag has no effect without a width). -/
def hexDigits (n : Nat) : Str := hexDigitsAux (n + 1) n []

/-- Embedding of `WadTree::resolve_chunk_path` (`mod.rs`, lines 78-83):
hash table lookup, falling back to the `{:#0x}` hexadecimal literal. -/
def resolve_chunk_path (path_hash : Nat) (hashtable : WadHashtable) : Str :=
  match htGet hashtable path_hash with
  | some path => path
  | none => '0' :: 'x' :: hexDigits path_hash

/-- `IndexMap::get`: first entry with the given key. -/
def findByKey : List (Str × WadTreeItem) → Str → Option WadTreeItem
  | [], _ => none
  | (k, v) :: rest, key => if k = key then some v else findByKey rest key

/-- `IndexMap::insert`: replace in place when the key is present,
otherwise append at the end (insertion order preserved). -/
def insertItem : List (Str × WadTreeItem) → Str → WadTreeItem → List (Str × WadTreeItem)
  | [], key, v => [(key, v)]
  | (k, w) :: rest, key, v =>
    if k = key then (key, v) :: rest else (k, w) :: insertItem rest key v

/-- Modelled from the spec: `add_item_to_parent` from the missing `utils`
submodule.  Consumes the chunk's path components one at a time against the
parent's child list.  A component followed by further components is a
folder name: an absent key creates a fresh Folder, an existing Folder is
descended into, an existing File aborts with `ExistingFile` carrying that
file's path.  The final component attaches a File keyed by it; an empty
final component aborts with `InvalidItemName` carrying the chunk's hash
(an exhausted component sequence, unreachable from `split('/')`, is
reported the same way).  The parent is given by its `is_root()` flag and
its path; every nested parent reached by descending is a folder, never
the root. -/
def add_item_to_parent (isRoot : Bool) (parentPath : Str)
    (items : List (Str × WadTreeItem))
    (components : List Str) (chunk : WadChunk) :
    Except WadTreeError (List (Str × WadTreeItem)) :=
  match components with
  | [] => .error (.invalidItemName chunk.path_hash)
  | [leaf] =>
    if leaf = [] then .error (.invalidItemName chunk.path_hash)
    else .ok (insertItem items leaf
      (.file leaf (joinPath isRoot parentPath leaf) chunk.path_hash))
  | comp :: rest =>
    match findByKey items comp with
    | some (.file _ fpath _) => .error (.existingFile fpath)
    | some (.folder fname fpath fitems) =>
      match add_item_to_parent false fpath fitems rest chunk with
      | .error e => .error e
      | .ok fitems2 => .ok (insertItem items comp (.folder fname fpath fitems2))
    | none =>
      match add_item_to_parent false (joinPath isRoot parentPath comp) [] rest chunk with
      | .error e => .error e
      | .ok fitems2 =>
        .ok (insertItem items comp
          (.folder comp (joinPath isRoot parentPath comp) fitems2))

/-- The chunk loop of `WadTree::from_wad` (`mod.rs`, lines 66-71): resolve
each chunk's path, split it on `/`, and attach it at the root, aborting on
the first error. -/
def buildChunks (hashtable : WadHashtable) :
    List WadChunk → List (Str × WadTreeItem) →
    Except WadTreeError (List (Str × WadTreeItem))
  | [], items => .ok items
  | chunk :: rest, items =>
    match add_item_to_parent true [] items
        (splitSlash (resolve_chunk_path chunk.path_hash hashtable)) chunk with
    | .error e => .error e
    | .ok items2 => buildChunks hashtable rest items2

/-- Folders order before files (spec ordering policy). -/
def itemKindNum : WadTreeItem → Nat
  | .folder _ _ _ => 0
  | .file _ _ _ => 1

/-- Case folding for the case-insensitive name comparison. -/
def lowerStr (s : Str) : Str := s.map Char.toLower

/-- Lexicographic `≤` on character lists. -/
def strLe : Str → Str → Bool
  | [], _ => true
  | _ :: _, [] => false
  | a :: as, b :: bs => if a = b then strLe as bs else decide (a < b)

/-- Modelled from the spec: the comparison used by the sort pass — folders
before files, then case-insensitive lexicographic order on `name()`. -/
def pairLe (a b : Str × WadTreeItem) : Prop :=
  (if itemKindNum a.2 = itemKindNum b.2
    then strLe (lowerStr a.2.name) (lowerStr b.2.name)
    else decide (itemKindNum a.2 < itemKindNum b.2)) = true

instance : DecidableRel pairLe := fun a b => by
  unfold pairLe; infer_instance

mutual

/-- Modelled from the spec: the recursive half of `sort_parent_items` —
every folder's children are recursively sorted. -/
def sortItem : WadTreeItem → WadTreeItem
  | .file n p h => .file n p h
  | .folder n p its => .folder n p (List.insertionSort pairLe (sortItemsList its))

/-- Recursively sort the values of a child list (keys untouched), without
reordering the list itself. -/
def sortItemsList : List (Str × WadTreeItem) → List (Str × WadTreeItem)
  | [] => []
  | (k, v) :: rest => (k, sortItem v) :: sortItemsList rest

end

/-- Embedding of `WadTree` (`mod.rs`, lines 39-45). -/
structure WadTree where
  wad_id : Nat
  wad_path : Str
  items : List (Str × WadTreeItem)
  selected_items : List Str

/-- Modelled from the spec: `sort_parent_items` from the missing `utils`
submodule — one recursive pass reordering every child list, the root's
included. -/
def sort_parent_items (t : WadTree) : WadTree :=
  { t with items := List.insertionSort pairLe (sortItemsList t.items) }

/-- Embedding of `WadTree::from_wad` (`mod.rs`, lines 48-76): start from
an empty tree, attach every chunk in order (fail-fast), then run the sort
pass once and return the tree. -/
def from_wad (chunks : List WadChunk) (wad_id : Nat) (wad_path : Str)
    (hashtable : WadHashtable) : Except WadTreeError WadTree :=
  match buildChunks hashtable chunks [] with
  | .error e => .error e
  | .ok items =>
    .ok (sort_parent_items
      { wad_id := wad_id, wad_path := wad_path, items := items, selected_items := [] })

/-- Embedding of `WadTree::set_selected_items` (`mod.rs`, lines 92-94). -/
def WadTree.set_selected_items (t : WadTree) (selected : List Str) : WadTree :=
  { t with selected_items := selected }

/-- Embedding of `WadTree::is_root` for the root (`mod.rs`, lines 98-100). -/
def WadTree.is_root (_ : WadTree) : Bool := true

/-- Embedding of the root's `WadTreePathable::id` (`mod.rs`, line 140-142):
the nil UUID, embedded as `0`. -/
def WadTree.id (_ : WadTree) : Nat := 0

/-- Embedding of the root's `WadTreePathable::name` (`mod.rs`, line 144-146). -/
def WadTree.name (_ : WadTree) : Str := []

/-- Embedding of the root's `WadTreePathable::path` (`mod.rs`, line 147-149). -/
def WadTree.path (_ : WadTree) : Str := []

/-- Embedding of the root's `WadTreePathable::name_hash` (`mod.rs`, line 150-152). -/
def WadTree.name_hash (_ : WadTree) : Nat := 0

/-- Embedding of the root's `WadTreePathable::path_hash` (`mod.rs`, line 153-155). -/
def WadTree.path_hash (_ : WadTree) : Nat := 0

/-! ## Easy claims: root sentinel, selection round-trip, selection frame -/

/-- C8: the tree root's `Pathable` implementation is a fixed sentinel —
nil identity, empty name and path, zero hashes, `is_root` true — while
interior items report `is_root` false. -/
theorem c8_root_sentinel :
    ∀ t : WadTree, t.id = 0 ∧ t.name = [] ∧ t.path = [] ∧
      t.name_hash = 0 ∧ t.path_hash = 0 ∧ t.is_root = true ∧
      ∀ item : WadTreeItem, item.is_root = false := by
  intro t
  exact ⟨rfl, rfl, rfl, rfl, rfl, rfl, fun _ => rfl⟩

/-- C9: `set_selected_items` followed by reading the selection back yields
exactly the submitted key sequence, replacing the previous selection
wholesale. -/
theorem c9_selection_round_trip :
    ∀ (t : WadTree) (keys : List Str),
      (t.set_selected_items keys).selected_items = keys := by
  intro t keys
  rfl

/-- C10: `set_selected_items` changes only the `selected_items` field; the
wad id, the wad path and the entire child mapping are unchanged. -/
theorem c10_selection_frame :
    ∀ (t : WadTree) (keys : List Str),
      (t.set_selected_items keys).wad_id = t.wad_id ∧
      (t.set_selected_items keys).wad_path = t.wad_path ∧
      (t.set_selected_items keys).items = t.items := by
  intro t keys
  exact ⟨rfl, rfl, rfl⟩

/-! ## Path splitting and hexadecimal rendering lemmas -/

/-- `split('/')` always yields at least one component. -/
theorem splitSlash_ne_nil (s : Str) : splitSlash s ≠ [] := by
  cases s with
  | nil => simp [splitSlash]
  | cons c rest =>
    simp only [splitSlash]
    cases splitSlash rest with
    | nil => simp
    | cons x xs =>
      by_cases h : c = '/' <;> simp [h]

/-- A string without `'/'` splits to the single component equal to itself. -/
theorem splitSlash_of_no_slash (s : Str) (h : '/' ∉ s) : splitSlash s = [s] := by
  induction s with
  | nil => rfl
  | cons c rest ih =>
    have hc : c ≠ '/' := fun hc => h (hc ▸ List.mem_cons_self c rest)
    have hr : '/' ∉ rest := fun hr => h (List.mem_cons_of_mem c hr)
    simp [splitSlash, ih hr, hc]

/-- Hexadecimal digit characters are never the path separator. -/
theorem hexChar_ne_slash (n : Nat) : hexChar n ≠ '/' := by
  unfold hexChar
  split <;> decide

theorem hexDigitsAux_no_slash (fuel n : Nat) (acc : Str)
    (hacc : '/' ∉ acc) : '/' ∉ hexDigitsAux fuel n acc := by
  induction fuel generalizing n acc with
  | zero => exact hacc
  | succ fuel ih =>
    simp only [hexDigitsAux]
    have hacc2 : '/' ∉ hexChar (n % 16) :: acc := by
      intro hmem
      rcases List.mem_cons.mp hmem with h | h
      · exact hexChar_ne_slash (n % 16) h.symm
      · exact hacc h
    by_cases h0 : n / 16 = 0
    · simpa [h0] using hacc2
    · simpa [h0] using ih (n / 16) _ hacc2

/-- The hexadecimal rendering of a hash contains no path separator. -/
theorem hexDigits_no_slash (n : Nat) : '/' ∉ hexDigits n :=
  hexDigitsAux_no_slash (n + 1) n [] (by simp)

/-- The hex-literal fallback path splits to a single nonempty component. -/
theorem splitSlash_fallback (n : Nat) :
    splitSlash ('0' :: 'x' :: hexDigits n) = ['0' :: 'x' :: hexDigits n] := by
  apply splitSlash_of_no_slash
  intro hmem
  rcases List.mem_cons.mp hmem with h | hmem
  · exact absurd h.symm (by decide)
  rcases List.mem_cons.mp hmem with h | hmem
  · exact absurd h.symm (by decide)
  · exact hexDigits_no_slash n hmem

/-! ## Claim C4: hash fallback -/

/-- C4: a chunk whose hash has no hash-table entry raises no error, and
its node's name is the fixed rendering `0x` followed by the hash's
lowercase hexadecimal digits. -/
theorem c4_hash_fallback (hashtable : WadHashtable) (chunk : WadChunk)
    (items : List (Str × WadTreeItem))
    (h : htGet hashtable chunk.path_hash = none) :
    add_item_to_parent true [] items
        (splitSlash (resolve_chunk_path chunk.path_hash hashtable)) chunk
      = .ok (insertItem items ('0' :: 'x' :: hexDigits chunk.path_hash)
          (.file ('0' :: 'x' :: hexDigits chunk.path_hash)
            ('0' :: 'x' :: hexDigits chunk.path_hash) chunk.path_hash)) ∧
    (WadTreeItem.file ('0' :: 'x' :: hexDigits chunk.path_hash)
        ('0' :: 'x' :: hexDigits chunk.path_hash) chunk.path_hash).name
      = '0' :: 'x' :: hexDigits chunk.path_hash := by
  have hres : resolve_chunk_path chunk.path_hash hashtable
      = '0' :: 'x' :: hexDigits chunk.path_hash := by
    simp [resolve_chunk_path, h]
  rw [hres, splitSlash_fallback]
  exact ⟨by simp [add_item_to_parent, joinPath], rfl⟩

/-- Witness for C4 at hash 255 with an empty hash table. -/
theorem c4_hash_fallback_witness :
    htGet [] (255 : Nat) = none ∧
    (add_item_to_parent true [] [] (splitSlash (resolve_chunk_path 255 [])) ⟨255⟩
      = .ok (insertItem [] ('0' :: 'x' :: hexDigits 255)
          (.file ('0' :: 'x' :: hexDigits 255) ('0' :: 'x' :: hexDigits 255) 255)) ∧
     (WadTreeItem.file ('0' :: 'x' :: hexDigits 255)
        ('0' :: 'x' :: hexDigits 255) 255).name = '0' :: 'x' :: hexDigits 255) :=
  ⟨rfl, c4_hash_fallback [] ⟨255⟩ [] rfl⟩

/-! ## Claim C3: ExistingFile conflict -/

/-- C3: chunks resolving to `"a/b"` then `"a/b/c"` make the build fail
with `ExistingFile` carrying `"a/b"`; in general, a component that must
become a folder but whose key already holds a file aborts with
`ExistingFile` carrying that file's path. -/
theorem c3_existing_file :
    (∀ (ht : WadHashtable) (c1 c2 : WadChunk) (wid : Nat) (wp : Str),
      resolve_chunk_path c1.path_hash ht = ['a', '/', 'b'] →
      resolve_chunk_path c2.path_hash ht = ['a', '/', 'b', '/', 'c'] →
      from_wad [c1, c2] wid wp ht = .error (.existingFile ['a', '/', 'b'])) ∧
    (∀ (isRoot : Bool) (pp : Str) (items : List (Str × WadTreeItem)) (comp : Str)
      (rest : List Str) (c : WadChunk) (n p : Str) (h : Nat),
      rest ≠ [] →
      findByKey items comp = some (.file n p h) →
      add_item_to_parent isRoot pp items (comp :: rest) c
        = .error (.existingFile p)) := by
  constructor
  · intro ht c1 c2 wid wp h1 h2
    have step1 : buildChunks ht [c1, c2] []
        = buildChunks ht [c2]
          [(['a'], .folder ['a'] ['a'] [(['b'], .file ['b'] ['a', '/', 'b'] c1.path_hash)])] := by
      simp only [buildChunks, h1]
      rfl
    have step2 : buildChunks ht [c2]
        [(['a'], .folder ['a'] ['a'] [(['b'], .file ['b'] ['a', '/', 'b'] c1.path_hash)])]
        = .error (.existingFile ['a', '/', 'b']) := by
      simp only [buildChunks, h2]
      rfl
    simp only [from_wad, step1, step2]
  · intro isRoot pp items comp rest c n p h hrest hfind
    cases rest with
    | nil => exact absurd rfl hrest
    | cons r rs => simp [add_item_to_parent, hfind]

/-- Witness for C3 with hashes 1 and 2 resolved by a two-entry table. -/
theorem c3_existing_file_witness :
    resolve_chunk_path 1 [(1, ['a', '/', 'b']), (2, ['a', '/', 'b', '/', 'c'])]
        = ['a', '/', 'b'] ∧
    resolve_chunk_path 2 [(1, ['a', '/', 'b']), (2, ['a', '/', 'b', '/', 'c'])]
        = ['a', '/', 'b', '/', 'c'] ∧
    ([['b']] : List Str) ≠ [] ∧
    findByKey [(['b'], .file ['b'] ['a', '/', 'b'] 1)] ['b']
        = some (.file ['b'] ['a', '/', 'b'] 1) ∧
    from_wad [⟨1⟩, ⟨2⟩] 0 [] [(1, ['a', '/', 'b']), (2, ['a', '/', 'b', '/', 'c'])]
        = .error (.existingFile ['a', '/', 'b']) ∧
    add_item_to_parent false ['a'] [(['b'], .file ['b'] ['a', '/', 'b'] 1)]
        (['b'] :: [['c']]) ⟨2⟩ = .error (.existingFile ['a', '/', 'b']) :=
  ⟨rfl, rfl, by simp, rfl,
    c3_existing_file.1 _ ⟨1⟩ ⟨2⟩ 0 [] rfl rfl,
    c3_existing_file.2 false ['a'] _ ['b'] [['c']] ⟨2⟩ ['b'] ['a', '/', 'b'] 1
      (by simp) rfl⟩

/-! ## Claim C2: fail-fast error propagation -/

/-- Processing a concatenated chunk list is processing the first part,
then (on success) the second. -/
theorem buildChunks_append (ht : WadHashtable) (l1 l2 : List WadChunk)
    (items : List (Str × WadTreeItem)) :
    buildChunks ht (l1 ++ l2) items
      = match buildChunks ht l1 items with
        | .error e => .error e
        | .ok mid => buildChunks ht l2 mid := by
  induction l1 generalizing items with
  | nil => simp [buildChunks]
  | cons c cs ih =>
    simp only [List.cons_append, buildChunks]
    cases add_item_to_parent true [] items
        (splitSlash (resolve_chunk_path c.path_hash ht)) c with
    | error e => rfl
    | ok items2 => exact ih items2

/-- C2: if every chunk before `c` attaches successfully and attaching `c`
raises an error, `from_wad` returns exactly that error and no tree,
whatever chunks follow. -/
theorem c2_fail_fast (ht : WadHashtable) (wid : Nat) (wp : Str)
    (pre post : List WadChunk) (c : WadChunk)
    (mid : List (Str × WadTreeItem)) (e : WadTreeError)
    (hpre : buildChunks ht pre [] = .ok mid)
    (hc : add_item_to_parent true [] mid
        (splitSlash (resolve_chunk_path c.path_hash ht)) c = .error e) :
    from_wad (pre ++ c :: post) wid wp ht = .error e := by
  simp only [from_wad, buildChunks_append, hpre, buildChunks, hc]

/-- Witness for C2: a chunk resolving to the empty path aborts the build
with `InvalidItemName`. -/
theorem c2_fail_fast_witness :
    buildChunks [(5, [])] [] [] = .ok [] ∧
    add_item_to_parent true [] [] (splitSlash (resolve_chunk_path 5 [(5, [])])) ⟨5⟩
        = .error (.invalidItemName 5) ∧
    from_wad ([] ++ ⟨5⟩ :: []) 0 [] [(5, [])] = .error (.invalidItemName 5) :=
  ⟨rfl, rfl, c2_fail_fast [(5, [])] 0 [] [] [] ⟨5⟩ [] (.invalidItemName 5) rfl rfl⟩

/-! ## Tree observations: walking a key chain, file nodes, file counts -/

/-- Walk the child mapping by a chain of keys; `some` exactly when every
intermediate key holds a folder and the final key holds any item. -/
def getAtChain (items : List (Str × WadTreeItem)) : List Str → Option WadTreeItem
  | [] => none
  | [k] => findByKey items k
  | k :: rest =>
    match findByKey items k with
    | some (.folder _ _ inner) => getAtChain inner rest
    | _ => none

mutual

/-- All File nodes inside one item (the item itself when it is a file). -/
def fileNodesItem : WadTreeItem → List WadTreeItem
  | .file n p h => [.file n p h]
  | .folder _ _ its => fileNodesList its

/-- All File nodes anywhere below a child list. -/
def fileNodesList : List (Str × WadTreeItem) → List WadTreeItem
  | [] => []
  | (_, v) :: rest => fileNodesItem v ++ fileNodesList rest

end

mutual

/-- Number of File nodes with the given `path_hash` inside one item. -/
def countFileItem (h : Nat) : WadTreeItem → Nat
  | .file _ _ ph => if ph = h then 1 else 0
  | .folder _ _ its => countFileList h its

/-- Number of File nodes with the given `path_hash` below a child list. -/
def countFileList (h : Nat) : List (Str × WadTreeItem) → Nat
  | [] => 0
  | (_, v) :: rest => countFileItem h v + countFileList h rest

end

/-! ## Claim C1: the stated success condition is too weak -/

/-- C1 counterexample: two chunks with distinct hashes and an injective
(collision-free) hash table — hash 1 resolving to `"a/b"`, hash 2 to
`"a/b/c"` — make the build fail instead of succeeding. -/
theorem c1_counterexample :
    (1 : Nat) ≠ 2 ∧
    (['a', '/', 'b'] : Str) ≠ ['a', '/', 'b', '/', 'c'] ∧
    from_wad [⟨1⟩, ⟨2⟩] 0 [] [(1, ['a', '/', 'b']), (2, ['a', '/', 'b', '/', 'c'])]
      = .error (.existingFile ['a', '/', 'b']) :=
  ⟨by decide, by decide, rfl⟩

/-! ## The sort order: totality and transitivity -/

theorem strLe_total : ∀ a b : Str, strLe a b = true ∨ strLe b a = true
  | [], _ => .inl rfl
  | _ :: _, [] => .inr rfl
  | x :: xs, y :: ys => by
    by_cases hxy : x = y
    · subst hxy
      simp only [strLe, if_pos rfl]
      exact strLe_total xs ys
    · simp only [strLe, if_neg hxy, if_neg (Ne.symm hxy), decide_eq_true_eq]
      rcases lt_trichotomy x y with h | h | h
      · exact .inl h
      · exact absurd h hxy
      · exact .inr h

theorem strLe_trans : ∀ {a b c : Str},
    strLe a b = true → strLe b c = true → strLe a c = true
  | [], _, _, _, _ => rfl
  | _ :: _, [], _, hab, _ => by simp [strLe] at hab
  | _ :: _, _ :: _, [], _, hbc => by simp [strLe] at hbc
  | x :: xs, y :: ys, z :: zs, hab, hbc => by
    simp only [strLe] at hab hbc ⊢
    by_cases hxy : x = y
    · subst hxy
      rw [if_pos rfl] at hab
      by_cases hyz : x = z
      · subst hyz
        rw [if_pos rfl] at hbc ⊢
        exact strLe_trans hab hbc
      · rwa [if_neg hyz] at hbc ⊢
    · rw [if_neg hxy, decide_eq_true_eq] at hab
      by_cases hyz : y = z
      · subst hyz
        rw [if_neg hxy, decide_eq_true_eq]
        exact hab
      · rw [if_neg hyz, decide_eq_true_eq] at hbc
        have hxz : x < z := lt_trans hab hbc
        rw [if_neg (ne_of_lt hxz), decide_eq_true_eq]
        exact hxz

/-- `pairLe` unfolded to a disjunction: strictly smaller kind, or equal
kind and case-folded names in lexicographic order. -/
theorem pairLe_def (a b : Str × WadTreeItem) :
    pairLe a b ↔ (itemKindNum a.2 < itemKindNum b.2 ∨
      (itemKindNum a.2 = itemKindNum b.2 ∧
        strLe (lowerStr a.2.name) (lowerStr b.2.name) = true)) := by
  unfold pairLe
  by_cases hk : itemKindNum a.2 = itemKindNum b.2
  · simp [hk]
  · simp [hk]

instance : IsTotal (Str × WadTreeItem) pairLe :=
  ⟨by
    intro a b
    rw [pairLe_def, pairLe_def]
    by_cases hk : itemKindNum a.2 = itemKindNum b.2
    · rcases strLe_total (lowerStr a.2.name) (lowerStr b.2.name) with h | h
      · exact .inl (.inr ⟨hk, h⟩)
      · exact .inr (.inr ⟨hk.symm, h⟩)
    · have := Nat.lt_or_ge (itemKindNum a.2) (itemKindNum b.2)
      rcases this with h | h
      · exact .inl (.inl h)
      · exact .inr (.inl (by omega))⟩

instance : IsTrans (Str × WadTreeItem) pairLe :=
  ⟨by
    intro a b c hab hbc
    rw [pairLe_def] at hab hbc ⊢
    rcases hab with h1 | ⟨h1, hs1⟩ <;> rcases hbc with h2 | ⟨h2, hs2⟩
    · exact .inl (by omega)
    · exact .inl (by omega)
    · exact .inl (by omega)
    · exact .inr ⟨by omega, strLe_trans hs1 hs2⟩⟩

/-! ## Recursive sortedness of the tree -/

mutual

/-- The ordering law, recursively: every folder's children are pairwise
ordered by `pairLe` (folders before files, then case-insensitive
lexicographic names) and recursively sorted. -/
def treeSortedItem : WadTreeItem → Prop
  | .file _ _ _ => True
  | .folder _ _ its => List.Sorted pairLe its ∧ treeSortedAll its

/-- Every child in the list is recursively sorted. -/
def treeSortedAll : List (Str × WadTreeItem) → Prop
  | [] => True
  | (_, v) :: rest => treeSortedItem v ∧ treeSortedAll rest

end

theorem treeSortedAll_iff :
    ∀ l : List (Str × WadTreeItem), treeSortedAll l ↔ ∀ kv ∈ l, treeSortedItem kv.2
  | [] => by simp [treeSortedAll]
  | (k, v) :: rest => by
    simp only [treeSortedAll, List.mem_cons]
    rw [treeSortedAll_iff rest]
    constructor
    · rintro ⟨h1, h2⟩ kv (rfl | hm)
      · exact h1
      · exact h2 _ hm
    · intro h
      exact ⟨h (k, v) (.inl rfl), fun kv hm => h kv (.inr hm)⟩

theorem sortItemsList_eq_map :
    ∀ l : List (Str × WadTreeItem),
      sortItemsList l = l.map (fun kv => (kv.1, sortItem kv.2))
  | [] => by simp [sortItemsList]
  | (k, v) :: rest => by
    simp only [sortItemsList, List.map_cons]
    rw [sortItemsList_eq_map rest]

theorem sortItem_sorted_aux :
    ∀ (n : Nat) (v : WadTreeItem), sizeOf v ≤ n → treeSortedItem (sortItem v) := by
  intro n
  induction n with
  | zero =>
    intro v hv
    exfalso
    cases v <;> simp at hv
  | succ n ih =>
    intro v hv
    match v with
    | .file nm p h => simp [sortItem, treeSortedItem]
    | .folder nm p its =>
      simp only [sortItem, treeSortedItem]
      refine ⟨List.sorted_insertionSort pairLe _, ?_⟩
      rw [treeSortedAll_iff]
      intro kv hkv
      rw [List.mem_insertionSort, sortItemsList_eq_map] at hkv
      rcases List.mem_map.mp hkv with ⟨⟨k0, v0⟩, hmem, heq⟩
      have hlt : sizeOf v0 < sizeOf (WadTreeItem.folder nm p its) := by
        have h1 := List.sizeOf_lt_of_mem hmem
        simp only [WadTreeItem.folder.sizeOf_spec, Prod.mk.sizeOf_spec] at h1 ⊢
        omega
      rw [← heq]
      exact ih v0 (by simp only [WadTreeItem.folder.sizeOf_spec] at hv hlt; omega)

theorem sortItem_sorted (v : WadTreeItem) : treeSortedItem (sortItem v) :=
  sortItem_sorted_aux (sizeOf v) v le_rfl

theorem sortedAll_sortList (l : List (Str × WadTreeItem)) :
    treeSortedAll (List.insertionSort pairLe (sortItemsList l)) := by
  rw [treeSortedAll_iff]
  intro kv hkv
  rw [List.mem_insertionSort, sortItemsList_eq_map] at hkv
  rcases List.mem_map.mp hkv with ⟨⟨k0, v0⟩, _, heq⟩
  rw [← heq]
  exact sortItem_sorted v0

/-! ## Claim C5: ordering law -/

/-- C5: in every tree `from_wad` returns, the root's children and every
folder's children are pairwise ordered by `pairLe` — folders precede
files, and within a kind case-folded names are non-decreasing — and
`from_wad` is literally the attachment loop followed by one terminal sort
pass. -/
theorem c5_ordering (chunks : List WadChunk) (wid : Nat) (wp : Str)
    (ht : WadHashtable) (t : WadTree) (h : from_wad chunks wid wp ht = .ok t) :
    (List.Sorted pairLe t.items ∧ treeSortedAll t.items) ∧
    from_wad chunks wid wp ht
      = (match buildChunks ht chunks [] with
          | .error e => .error e
          | .ok its =>
            .ok (sort_parent_items
              { wad_id := wid, wad_path := wp, items := its, selected_items := [] })) := by
  refine ⟨?_, rfl⟩
  unfold from_wad at h
  cases hb : buildChunks ht chunks [] with
  | error e => rw [hb] at h; exact absurd h (by simp)
  | ok its =>
    rw [hb] at h
    injection h with h
    subst h
    exact ⟨List.sorted_insertionSort pairLe _, sortedAll_sortList its⟩

/-- Witness for C5: the one-chunk build with resolved path `"a"`. -/
theorem c5_ordering_witness :
    from_wad [⟨1⟩] 0 [] [(1, ['a'])]
      = .ok { wad_id := 0, wad_path := [], items := [(['a'], .file ['a'] ['a'] 1)],
              selected_items := [] } ∧
    (List.Sorted pairLe [(['a'], WadTreeItem.file ['a'] ['a'] 1)] ∧
      treeSortedAll [(['a'], WadTreeItem.file ['a'] ['a'] 1)]) := by
  have hok : from_wad [⟨1⟩] 0 [] [(1, ['a'])]
      = .ok { wad_id := 0, wad_path := [], items := [(['a'], .file ['a'] ['a'] 1)],
              selected_items := [] } := by
    simp [from_wad, buildChunks, add_item_to_parent, resolve_chunk_path, htGet,
      splitSlash, insertItem, joinPath, sort_parent_items, sortItemsList, sortItem,
      List.insertionSort, List.orderedInsert]
  exact ⟨hok, (c5_ordering [⟨1⟩] 0 [] [(1, ['a'])] _ hok).1⟩

/-! ## Claim C7: idempotence of the sort pass -/

theorem map_fixes {α : Type} (f : α → α) :
    ∀ l : List α, (∀ a ∈ l, f a = a) → l.map f = l
  | [], _ => rfl
  | a :: rest, h => by
    rw [List.map_cons, h a (List.mem_cons_self a rest),
      map_fixes f rest fun b hb => h b (List.mem_cons_of_mem a hb)]

theorem sortItem_idem_aux :
    ∀ (n : Nat) (v : WadTreeItem), sizeOf v ≤ n → sortItem (sortItem v) = sortItem v := by
  intro n
  induction n with
  | zero =>
    intro v hv
    exfalso
    cases v <;> simp at hv
  | succ n ih =>
    intro v hv
    match v with
    | .file nm p h => simp [sortItem]
    | .folder nm p its =>
      simp only [sortItem]
      have hfix : sortItemsList (List.insertionSort pairLe (sortItemsList its))
          = List.insertionSort pairLe (sortItemsList its) := by
        rw [sortItemsList_eq_map]
        apply map_fixes
        intro kv hkv
        rw [List.mem_insertionSort, sortItemsList_eq_map] at hkv
        rcases List.mem_map.mp hkv with ⟨⟨k0, v0⟩, hmem, heq⟩
        have hlt : sizeOf v0 < sizeOf (WadTreeItem.folder nm p its) := by
          have h1 := List.sizeOf_lt_of_mem hmem
          simp only [WadTreeItem.folder.sizeOf_spec, Prod.mk.sizeOf_spec] at h1 ⊢
          omega
        have hsz : sizeOf v0 ≤ n := by
          simp only [WadTreeItem.folder.sizeOf_spec] at hv hlt
          omega
        rw [← heq]
        simp only
        rw [ih v0 hsz]
      rw [hfix, List.Sorted.insertionSort_eq (List.sorted_insertionSort pairLe _)]

theorem sortItem_idem (v : WadTreeItem) : sortItem (sortItem v) = sortItem v :=
  sortItem_idem_aux (sizeOf v) v le_rfl

theorem sortList_idem (l : List (Str × WadTreeItem)) :
    List.insertionSort pairLe (sortItemsList (List.insertionSort pairLe (sortItemsList l)))
      = List.insertionSort pairLe (sortItemsList l) := by
  have hfix : sortItemsList (List.insertionSort pairLe (sortItemsList l))
      = List.insertionSort pairLe (sortItemsList l) := by
    rw [sortItemsList_eq_map]
    apply map_fixes
    intro kv hkv
    rw [List.mem_insertionSort, sortItemsList_eq_map] at hkv
    rcases List.mem_map.mp hkv with ⟨⟨k0, v0⟩, _, heq⟩
    rw [← heq]
    simp only
    rw [sortItem_idem v0]
  rw [hfix, List.Sorted.insertionSort_eq (List.sorted_insertionSort pairLe _)]

/-- C7: the recursive sort pass is idempotent — running it twice yields
the same tree, hence the same child ordering at the root and in every
folder, as running it once. -/
theorem c7_sort_idempotent :
    ∀ t : WadTree, sort_parent_items (sort_parent_items t) = sort_parent_items t := by
  intro t
  show WadTree.mk t.wad_id t.wad_path
      (List.insertionSort pairLe (sortItemsList
        (List.insertionSort pairLe (sortItemsList t.items)))) t.selected_items
    = WadTree.mk t.wad_id t.wad_path
      (List.insertionSort pairLe (sortItemsList t.items)) t.selected_items
  rw [sortList_idem]

/-! ## Chains of path components -/

/-- `chainLeq p q`: the component list `p` is an initial segment of `q`. -/
def chainLeq (p q : List Str) : Prop := ∃ r, p ++ r = q

theorem chainLeq_refl (p : List Str) : chainLeq p p := ⟨[], List.append_nil p⟩

theorem chainLeq_nil_left (q : List Str) : chainLeq [] q := ⟨q, rfl⟩

theorem chainLeq_nil_right {p : List Str} (h : chainLeq p []) : p = [] := by
  rcases h with ⟨r, hr⟩
  exact List.append_eq_nil.mp hr |>.1

theorem chainLeq_cons_iff (a b : Str) (as bs : List Str) :
    chainLeq (a :: as) (b :: bs) ↔ a = b ∧ chainLeq as bs := by
  constructor
  · rintro ⟨r, hr⟩
    rw [List.cons_append] at hr
    injection hr with h1 h2
    exact ⟨h1, r, h2⟩
  · rintro ⟨rfl, r, hr⟩
    exact ⟨r, by rw [List.cons_append, hr]⟩

theorem chainLeq_iff_take (p q : List Str) : chainLeq p q ↔ q.take p.length = p := by
  constructor
  · rintro ⟨r, rfl⟩
    exact List.take_left p r
  · intro h
    have h2 := List.take_append_drop p.length q
    rw [h] at h2
    exact ⟨q.drop p.length, h2⟩

instance (p q : List Str) : Decidable (chainLeq p q) :=
  decidable_of_iff _ (chainLeq_iff_take p q).symm

/-- The last component of a chain (`[]` for the empty chain). -/
def lastOf : List Str → Str
  | [] => []
  | [x] => x
  | _ :: xs => lastOf xs

theorem lastOf_cons {rest : List Str} (a : Str) (h : rest ≠ []) :
    lastOf (a :: rest) = lastOf rest := by
  cases rest with
  | nil => exact absurd rfl h
  | cons b bs => rfl

/-! ## Association-list lemmas -/

theorem findByKey_insert_self (l : List (Str × WadTreeItem)) (k : Str) (v : WadTreeItem) :
    findByKey (insertItem l k v) k = some v := by
  induction l with
  | nil => simp [insertItem, findByKey]
  | cons kv rest ih =>
    obtain ⟨k0, w⟩ := kv
    by_cases h : k0 = k
    · simp [insertItem, h, findByKey]
    · simp [insertItem, h, findByKey, ih]

theorem findByKey_insert_ne (l : List (Str × WadTreeItem)) (k k' : Str) (v : WadTreeItem)
    (h : k' ≠ k) : findByKey (insertItem l k v) k' = findByKey l k' := by
  induction l with
  | nil => simp [insertItem, findByKey, Ne.symm h]
  | cons kv rest ih =>
    obtain ⟨k0, w⟩ := kv
    by_cases h0 : k0 = k
    · subst h0
      simp [insertItem, findByKey, Ne.symm h]
    · by_cases h1 : k0 = k'
      · simp [insertItem, h0, findByKey, h1, h]
      · simp [insertItem, h0, findByKey, h1, ih]

theorem insertItem_of_not_found (l : List (Str × WadTreeItem)) (k : Str) (v : WadTreeItem)
    (h : findByKey l k = none) : insertItem l k v = l ++ [(k, v)] := by
  induction l with
  | nil => rfl
  | cons kv rest ih =>
    obtain ⟨k0, w⟩ := kv
    by_cases h0 : k0 = k
    · simp [findByKey, h0] at h
    · simp only [findByKey, if_neg h0] at h
      simp [insertItem, h0, ih h]

theorem findByKey_append (l1 l2 : List (Str × WadTreeItem)) (k : Str) :
    findByKey (l1 ++ l2) k
      = match findByKey l1 k with
        | some v => some v
        | none => findByKey l2 k := by
  induction l1 with
  | nil => simp [findByKey]
  | cons kv rest ih =>
    obtain ⟨k0, w⟩ := kv
    by_cases h0 : k0 = k
    · simp [findByKey, h0]
    · simp [findByKey, h0, ih]

theorem insertItem_mem {l : List (Str × WadTreeItem)} {k : Str} {v : WadTreeItem}
    {kv : Str × WadTreeItem} (h : kv ∈ insertItem l k v) : kv ∈ l ∨ kv = (k, v) := by
  induction l with
  | nil => simp [insertItem] at h; exact .inr h
  | cons kv0 rest ih =>
    obtain ⟨k0, w⟩ := kv0
    by_cases h0 : k0 = k
    · simp only [insertItem, if_pos h0] at h
      rcases List.mem_cons.mp h with h | h
      · exact .inr h
      · exact .inl (List.mem_cons_of_mem _ h)
    · simp only [insertItem, if_neg h0] at h
      rcases List.mem_cons.mp h with h | h
      · exact .inl (h ▸ List.mem_cons_self _ _)
      · rcases ih h with h | h
        · exact .inl (List.mem_cons_of_mem _ h)
        · exact .inr h

/-! ## Chain-walk lemmas -/

theorem getAtChain_nil : ∀ cs : List Str, getAtChain [] cs = none
  | [] => rfl
  | [_] => rfl
  | _ :: _ :: _ => rfl

theorem getAtChain_cons₂ (l : List (Str × WadTreeItem)) (k : Str) {cs : List Str}
    (h : cs ≠ []) :
    getAtChain l (k :: cs)
      = match findByKey l k with
        | some (.folder _ _ inner) => getAtChain inner cs
        | _ => none := by
  cases cs with
  | nil => exact absurd rfl h
  | cons c cs' => rfl

theorem getAtChain_cons_congr (l1 l2 : List (Str × WadTreeItem)) (k : Str) (cs : List Str)
    (h : findByKey l2 k = findByKey l1 k) :
    getAtChain l2 (k :: cs) = getAtChain l1 (k :: cs) := by
  cases cs with
  | nil => simpa [getAtChain] using h
  | cons c cs' =>
    rw [getAtChain_cons₂ l2 k (by simp), getAtChain_cons₂ l1 k (by simp), h]

/-- A file sits at the end of the chain `cs`, with path hash `h`. -/
def chainIsFile (l : List (Str × WadTreeItem)) (cs : List Str) (h : Nat) : Prop :=
  ∃ n p, getAtChain l cs = some (.file n p h)

/-- A folder sits at the end of the chain `cs`. -/
def chainIsFolder (l : List (Str × WadTreeItem)) (cs : List Str) : Prop :=
  ∃ n p inner, getAtChain l cs = some (.folder n p inner)

/-! ## Counting lemmas -/

theorem countFileList_append (h : Nat) (l1 l2 : List (Str × WadTreeItem)) :
    countFileList h (l1 ++ l2) = countFileList h l1 + countFileList h l2 := by
  induction l1 with
  | nil => simp [countFileList]
  | cons kv rest ih =>
    obtain ⟨k0, w⟩ := kv
    simp only [List.cons_append, countFileList]
    simp only [List.append_eq] at ih ⊢
    omega

theorem countFileList_insert_found (h : Nat) (l : List (Str × WadTreeItem))
    (k : Str) (v v0 : WadTreeItem) (hf : findByKey l k = some v0) :
    countFileList h (insertItem l k v) + countFileItem h v0
      = countFileList h l + countFileItem h v := by
  induction l with
  | nil => simp [findByKey] at hf
  | cons kv rest ih =>
    obtain ⟨k0, w⟩ := kv
    by_cases h0 : k0 = k
    · simp only [findByKey, if_pos h0, Option.some.injEq] at hf
      subst hf
      simp only [insertItem, if_pos h0, countFileList]
      omega
    · simp only [findByKey, if_neg h0] at hf
      simp only [insertItem, if_neg h0, countFileList]
      have := ih hf
      omega

theorem countFileList_insert_absent (h : Nat) (l : List (Str × WadTreeItem))
    (k : Str) (v : WadTreeItem) (hf : findByKey l k = none) :
    countFileList h (insertItem l k v) = countFileList h l + countFileItem h v := by
  rw [insertItem_of_not_found l k v hf, countFileList_append]
  simp [countFileList]

theorem getAtChain_single (l : List (Str × WadTreeItem)) (k : Str) :
    getAtChain l [k] = findByKey l k := rfl

theorem getAtChain_cons_folder {l : List (Str × WadTreeItem)} {k n p : Str}
    {inner : List (Str × WadTreeItem)} {cs : List Str}
    (h : findByKey l k = some (.folder n p inner)) (hcs : cs ≠ []) :
    getAtChain l (k :: cs) = getAtChain inner cs := by
  rw [getAtChain_cons₂ l k hcs, h]

theorem getAtChain_cons_file {l : List (Str × WadTreeItem)} {k n p : Str} {h0 : Nat}
    {cs : List Str} (h : findByKey l k = some (.file n p h0)) (hcs : cs ≠ []) :
    getAtChain l (k :: cs) = none := by
  rw [getAtChain_cons₂ l k hcs, h]

theorem getAtChain_cons_none {l : List (Str × WadTreeItem)} {k : Str} {cs : List Str}
    (h : findByKey l k = none) (hcs : cs ≠ []) :
    getAtChain l (k :: cs) = none := by
  rw [getAtChain_cons₂ l k hcs, h]

/-- The central step lemma: attaching one chunk whose component chain is
fresh (no file on any proper prefix, nothing at the chain itself) succeeds
and changes the tree exactly at that chain — a file appears there, proper
prefixes hold folders, strict extensions hold nothing, unrelated chains
are untouched, and exactly one file with the chunk's hash is added. -/
theorem add_step (c : WadChunk) (comps : List Str) :
    ∀ (isRoot : Bool) (pp : Str) (its : List (Str × WadTreeItem)),
      comps ≠ [] →
      lastOf comps ≠ [] →
      (∀ q h, q ≠ [] → chainLeq q comps → q ≠ comps → ¬ chainIsFile its q h) →
      getAtChain its comps = none →
      ∃ its2,
        add_item_to_parent isRoot pp its comps c = .ok its2 ∧
        chainIsFile its2 comps c.path_hash ∧
        (∀ cs, ¬ chainLeq cs comps → ¬ chainLeq comps cs →
          getAtChain its2 cs = getAtChain its cs) ∧
        (∀ cs, cs ≠ [] → chainLeq cs comps → cs ≠ comps → chainIsFolder its2 cs) ∧
        (∀ cs, chainLeq comps cs → cs ≠ comps → getAtChain its2 cs = none) ∧
        (∀ h, countFileList h its2
          = countFileList h its + (if c.path_hash = h then 1 else 0)) := by
  induction comps with
  | nil => intro isRoot pp its hne _ _ _; exact absurd rfl hne
  | cons comp rest ih =>
    intro isRoot pp its _ hlast hnofile hnone
    cases rest with
    | nil =>
      -- leaf: comps = [comp]
      have hcomp : comp ≠ [] := hlast
      have hfindnone : findByKey its comp = none := hnone
      refine ⟨insertItem its comp
        (.file comp (joinPath isRoot pp comp) c.path_hash), ?_, ?_, ?_, ?_, ?_, ?_⟩
      · simp [add_item_to_parent, hcomp]
      · exact ⟨comp, joinPath isRoot pp comp, by
          rw [getAtChain_single, findByKey_insert_self]⟩
      · intro cs hcs1 hcs2
        cases cs with
        | nil => exact absurd (chainLeq_nil_left _) hcs1
        | cons k cs2 =>
          by_cases hk : k = comp
          · subst hk
            cases cs2 with
            | nil => exact absurd (chainLeq_refl _) hcs1
            | cons d ds => exact absurd ⟨d :: ds, rfl⟩ hcs2
          · exact getAtChain_cons_congr its _ k cs2
              (findByKey_insert_ne its comp k _ hk)
      · intro q hq hle hneq
        exfalso
        cases q with
        | nil => exact hq rfl
        | cons k q2 =>
          rw [chainLeq_cons_iff] at hle
          obtain ⟨rfl, hle2⟩ := hle
          have := chainLeq_nil_right hle2
          subst this
          exact hneq rfl
      · intro cs hle hneq
        rcases hle with ⟨r, hr⟩
        cases r with
        | nil => exact absurd hr.symm (by simpa using hneq)
        | cons d ds =>
          subst hr
          exact getAtChain_cons_file (findByKey_insert_self its comp _) (by simp)
      · intro h
        rw [countFileList_insert_absent h its comp _ hfindnone]
        simp [countFileItem]
    | cons r rs =>
      -- comps = comp :: rest with rest = r :: rs nonempty
      have hrestne : (r :: rs : List Str) ≠ [] := by simp
      have hlast2 : lastOf (r :: rs) ≠ [] := by
        rwa [lastOf_cons comp hrestne] at hlast
      cases hfind : findByKey its comp with
      | some v =>
        cases v with
        | file n0 p0 h0 =>
          exfalso
          exact hnofile [comp] h0 (by simp) ⟨r :: rs, rfl⟩ (by simp)
            ⟨n0, p0, by rw [getAtChain_single, hfind]⟩
        | folder fname fpath fitems =>
          have hnone2 : getAtChain fitems (r :: rs) = none := by
            rwa [getAtChain_cons_folder hfind hrestne] at hnone
          have hnofile2 : ∀ q h, q ≠ [] → chainLeq q (r :: rs) → q ≠ r :: rs →
              ¬ chainIsFile fitems q h := by
            rintro q h hq hle hneq ⟨n1, p1, hget⟩
            exact hnofile (comp :: q) h (by simp)
              ((chainLeq_cons_iff _ _ q (r :: rs)).mpr ⟨rfl, hle⟩)
              (by simpa using hneq)
              ⟨n1, p1, by rw [getAtChain_cons_folder hfind hq, hget]⟩
          obtain ⟨fitems2, hadd2, hc1, hc2, hc3, hc4, hc5⟩ :=
            ih false fpath fitems hrestne hlast2 hnofile2 hnone2
          have hfound2 : findByKey (insertItem its comp (.folder fname fpath fitems2)) comp
              = some (.folder fname fpath fitems2) := findByKey_insert_self its comp _
          refine ⟨insertItem its comp (.folder fname fpath fitems2), ?_, ?_, ?_, ?_, ?_, ?_⟩
          · simp only [add_item_to_parent, hfind, hadd2]
          · obtain ⟨n1, p1, hget⟩ := hc1
            exact ⟨n1, p1, by rw [getAtChain_cons_folder hfound2 hrestne, hget]⟩
          · intro cs hcs1 hcs2
            cases cs with
            | nil => exact absurd (chainLeq_nil_left _) hcs1
            | cons k cs2 =>
              by_cases hk : k = comp
              · subst hk
                have hcs2ne : cs2 ≠ [] := by
                  intro hcs2nil
                  subst hcs2nil
                  exact hcs1 ⟨r :: rs, rfl⟩
                have h1 : ¬ chainLeq cs2 (r :: rs) := fun hle =>
                  hcs1 ((chainLeq_cons_iff _ _ cs2 (r :: rs)).mpr ⟨rfl, hle⟩)
                have h2 : ¬ chainLeq (r :: rs) cs2 := fun hle =>
                  hcs2 ((chainLeq_cons_iff _ _ (r :: rs) cs2).mpr ⟨rfl, hle⟩)
                rw [getAtChain_cons_folder hfound2 hcs2ne,
                  getAtChain_cons_folder hfind hcs2ne]
                exact hc2 cs2 h1 h2
              · exact getAtChain_cons_congr its _ k cs2
                  (findByKey_insert_ne its comp k _ hk)
          · intro cs hcs hle hneq
            cases cs with
            | nil => exact absurd rfl hcs
            | cons k cs2 =>
              rw [chainLeq_cons_iff] at hle
              obtain ⟨rfl, hle2⟩ := hle
              cases hcs2 : cs2 with
              | nil =>
                exact ⟨fname, fpath, fitems2, by rw [getAtChain_single, hfound2]⟩
              | cons d ds =>
                subst hcs2
                have hneq2 : (d :: ds : List Str) ≠ r :: rs := by
                  intro hcontra
                  rw [hcontra] at hneq
                  exact hneq rfl
                obtain ⟨n1, p1, inner1, hget⟩ := hc3 (d :: ds) (by simp) hle2 hneq2
                exact ⟨n1, p1, inner1, by
                  rw [getAtChain_cons_folder hfound2 (by simp), hget]⟩
          · intro cs hle hneq
            rcases hle with ⟨r0, hr0⟩
            rw [List.cons_append] at hr0
            subst hr0
            have hr0ne : r0 ≠ [] := by
              intro hr0nil
              subst hr0nil
              simp at hneq
            have hsuffne : (r :: rs) ++ r0 ≠ r :: rs := by
              intro hcontra
              have := congrArg List.length hcontra
              simp [List.length_append] at this
              exact hr0ne this
            rw [getAtChain_cons_folder hfound2 (by simp)]
            exact hc4 ((r :: rs) ++ r0) ⟨r0, rfl⟩ hsuffne
          · intro h
            have hins := countFileList_insert_found h its comp
              (.folder fname fpath fitems2) _ hfind
            simp only [countFileItem] at hins
            have := hc5 h
            omega
      | none =>
        have hnofile2 : ∀ q h, q ≠ [] → chainLeq q (r :: rs) → q ≠ r :: rs →
            ¬ chainIsFile ([] : List (Str × WadTreeItem)) q h := by
          rintro q h _ _ _ ⟨n1, p1, hget⟩
          rw [getAtChain_nil] at hget
          exact Option.noConfusion hget
        obtain ⟨fitems2, hadd2, hc1, hc2, hc3, hc4, hc5⟩ :=
          ih false (joinPath isRoot pp comp) [] hrestne hlast2 hnofile2
            (getAtChain_nil _)
        have hfound2 : findByKey
            (insertItem its comp
              (.folder comp (joinPath isRoot pp comp) fitems2)) comp
            = some (.folder comp (joinPath isRoot pp comp) fitems2) :=
          findByKey_insert_self its comp _
        refine ⟨insertItem its comp
          (.folder comp (joinPath isRoot pp comp) fitems2),
          ?_, ?_, ?_, ?_, ?_, ?_⟩
        · simp only [add_item_to_parent, hfind, hadd2]
        · obtain ⟨n1, p1, hget⟩ := hc1
          exact ⟨n1, p1, by rw [getAtChain_cons_folder hfound2 hrestne, hget]⟩
        · intro cs hcs1 hcs2
          cases cs with
          | nil => exact absurd (chainLeq_nil_left _) hcs1
          | cons k cs2 =>
            by_cases hk : k = comp
            · subst hk
              have hcs2ne : cs2 ≠ [] := by
                intro hcs2nil
                subst hcs2nil
                exact hcs1 ⟨r :: rs, rfl⟩
              have h1 : ¬ chainLeq cs2 (r :: rs) := fun hle =>
                hcs1 ((chainLeq_cons_iff _ _ cs2 (r :: rs)).mpr ⟨rfl, hle⟩)
              have h2 : ¬ chainLeq (r :: rs) cs2 := fun hle =>
                hcs2 ((chainLeq_cons_iff _ _ (r :: rs) cs2).mpr ⟨rfl, hle⟩)
              rw [getAtChain_cons_folder hfound2 hcs2ne,
                getAtChain_cons_none hfind hcs2ne]
              rw [hc2 cs2 h1 h2, getAtChain_nil]
            · exact getAtChain_cons_congr its _ k cs2
                (findByKey_insert_ne its comp k _ hk)
        · intro cs hcs hle hneq
          cases cs with
          | nil => exact absurd rfl hcs
          | cons k cs2 =>
            rw [chainLeq_cons_iff] at hle
            obtain ⟨rfl, hle2⟩ := hle
            cases hcs2 : cs2 with
            | nil =>
              exact ⟨_, _, fitems2, by
                rw [getAtChain_single, hfound2]⟩
            | cons d ds =>
              subst hcs2
              have hneq2 : (d :: ds : List Str) ≠ r :: rs := by
                intro hcontra
                rw [hcontra] at hneq
                exact hneq rfl
              obtain ⟨n1, p1, inner1, hget⟩ := hc3 (d :: ds) (by simp) hle2 hneq2
              exact ⟨n1, p1, inner1, by
                rw [getAtChain_cons_folder hfound2 (by simp), hget]⟩
        · intro cs hle hneq
          rcases hle with ⟨r0, hr0⟩
          rw [List.cons_append] at hr0
          subst hr0
          have hr0ne : r0 ≠ [] := by
            intro hr0nil
            subst hr0nil
            simp at hneq
          have hsuffne : (r :: rs) ++ r0 ≠ r :: rs := by
            intro hcontra
            have := congrArg List.length hcontra
            simp [List.length_append] at this
            exact hr0ne this
          rw [getAtChain_cons_folder hfound2 (by simp)]
          exact hc4 ((r :: rs) ++ r0) ⟨r0, rfl⟩ hsuffne
        · intro h
          rw [countFileList_insert_absent h its comp _ hfind]
          simp only [countFileItem]
          have := hc5 h
          simp only [countFileList] at this
          omega

/-! ## The build invariant and the amended C1 -/

/-- The component chain a chunk resolves to. -/
def chunkComps (c : WadChunk) (ht : WadHashtable) : List Str :=
  splitSlash (resolve_chunk_path c.path_hash ht)

theorem chunkComps_ne_nil (c : WadChunk) (ht : WadHashtable) : chunkComps c ht ≠ [] :=
  splitSlash_ne_nil _

/-- Build invariant: files sit exactly at the chains of processed chunks,
folders exactly at their proper prefixes, and per-hash file counts match
the processed chunk list. -/
def buildInv (ht : WadHashtable) (done : List WadChunk)
    (its : List (Str × WadTreeItem)) : Prop :=
  (∀ cs h, chainIsFile its cs h →
    ∃ c ∈ done, chunkComps c ht = cs ∧ c.path_hash = h) ∧
  (∀ cs, chainIsFolder its cs →
    ∃ c ∈ done, chainLeq cs (chunkComps c ht) ∧ cs ≠ chunkComps c ht) ∧
  (∀ c ∈ done, chainIsFile its (chunkComps c ht) c.path_hash) ∧
  (∀ h, countFileList h its = done.countP (fun c => c.path_hash = h))

theorem buildInv_nil (ht : WadHashtable) : buildInv ht [] [] := by
  refine ⟨?_, ?_, ?_, ?_⟩
  · rintro cs h ⟨n, p, hget⟩
    rw [getAtChain_nil] at hget
    exact Option.noConfusion hget
  · rintro cs ⟨n, p, inner, hget⟩
    rw [getAtChain_nil] at hget
    exact Option.noConfusion hget
  · intro c hc
    simp at hc
  · intro h
    simp [countFileList]

theorem buildInv_step (ht : WadHashtable) (done : List WadChunk)
    (its : List (Str × WadTreeItem)) (c : WadChunk)
    (hinv : buildInv ht done its)
    (hvalid : lastOf (chunkComps c ht) ≠ [])
    (hfresh : ∀ d ∈ done, ¬ chainLeq (chunkComps d ht) (chunkComps c ht)
      ∧ ¬ chainLeq (chunkComps c ht) (chunkComps d ht)) :
    ∃ its2, add_item_to_parent true [] its (chunkComps c ht) c = .ok its2 ∧
      buildInv ht (done ++ [c]) its2 := by
  obtain ⟨hsf, hsd, hdone, hcnt⟩ := hinv
  have hnofile : ∀ q h, q ≠ [] → chainLeq q (chunkComps c ht) →
      q ≠ chunkComps c ht → ¬ chainIsFile its q h := by
    intro q h _ hle _ hfile
    obtain ⟨d, hd, hdc, _⟩ := hsf q h hfile
    exact (hfresh d hd).1 (hdc ▸ hle)
  have hnone : getAtChain its (chunkComps c ht) = none := by
    cases hget : getAtChain its (chunkComps c ht) with
    | none => rfl
    | some v =>
      exfalso
      cases v with
      | file n p h0 =>
        obtain ⟨d, hd, hdc, _⟩ := hsf _ h0 ⟨n, p, hget⟩
        exact (hfresh d hd).1 (hdc ▸ chainLeq_refl _)
      | folder n p inner =>
        obtain ⟨d, hd, hdc, _⟩ := hsd _ ⟨n, p, inner, hget⟩
        exact (hfresh d hd).2 hdc
  obtain ⟨its2, hadd, hc1, hc2, hc3, hc4, hc5⟩ :=
    add_step c (chunkComps c ht) true [] its (chunkComps_ne_nil c ht) hvalid hnofile hnone
  refine ⟨its2, hadd, ?_, ?_, ?_, ?_⟩
  · intro cs h hfile
    by_cases h1 : chainLeq cs (chunkComps c ht)
    · by_cases h2 : cs = chunkComps c ht
      · subst h2
        obtain ⟨n, p, hg⟩ := hfile
        obtain ⟨n2, p2, hg2⟩ := hc1
        rw [hg] at hg2
        injection hg2 with hg3
        injection hg3 with _ _ hg4
        exact ⟨c, by simp, rfl, hg4.symm⟩
      · have hcsne : cs ≠ [] := by
          intro hnil
          subst hnil
          obtain ⟨n, p, hg⟩ := hfile
          exact Option.noConfusion hg
        obtain ⟨n2, p2, inner2, hg2⟩ := hc3 cs hcsne h1 h2
        obtain ⟨n, p, hg⟩ := hfile
        rw [hg] at hg2
        exact WadTreeItem.noConfusion (Option.some.inj hg2)
    · by_cases h3 : chainLeq (chunkComps c ht) cs
      · have hne : cs ≠ chunkComps c ht := fun he => h1 (he ▸ chainLeq_refl _)
        obtain ⟨n, p, hg⟩ := hfile
        rw [hc4 cs h3 hne] at hg
        exact Option.noConfusion hg
      · obtain ⟨n, p, hg⟩ := hfile
        rw [hc2 cs h1 h3] at hg
        obtain ⟨d, hd, hdc, hdh⟩ := hsf cs h ⟨n, p, hg⟩
        exact ⟨d, List.mem_append_left _ hd, hdc, hdh⟩
  · intro cs hfolder
    by_cases h1 : chainLeq cs (chunkComps c ht)
    · by_cases h2 : cs = chunkComps c ht
      · subst h2
        obtain ⟨n, p, inner, hg⟩ := hfolder
        obtain ⟨n2, p2, hg2⟩ := hc1
        rw [hg] at hg2
        exact WadTreeItem.noConfusion (Option.some.inj hg2)
      · exact ⟨c, by simp, h1, h2⟩
    · by_cases h3 : chainLeq (chunkComps c ht) cs
      · have hne : cs ≠ chunkComps c ht := fun he => h1 (he ▸ chainLeq_refl _)
        obtain ⟨n, p, inner, hg⟩ := hfolder
        rw [hc4 cs h3 hne] at hg
        exact Option.noConfusion hg
      · obtain ⟨n, p, inner, hg⟩ := hfolder
        rw [hc2 cs h1 h3] at hg
        obtain ⟨d, hd, hdc, hdne⟩ := hsd cs ⟨n, p, inner, hg⟩
        exact ⟨d, List.mem_append_left _ hd, hdc, hdne⟩
  · intro d hd
    rcases List.mem_append.mp hd with hd | hd
    · obtain ⟨n, p, hg⟩ := hdone d hd
      refine ⟨n, p, ?_⟩
      rw [hc2 (chunkComps d ht) (hfresh d hd).1 (hfresh d hd).2]
      exact hg
    · rcases List.mem_singleton.mp hd with rfl
      exact hc1
  · intro h
    rw [hc5 h, hcnt h, List.countP_append]
    by_cases hh : c.path_hash = h
    · simp [List.countP_cons, hh]
    · simp [List.countP_cons, hh]

theorem buildChunks_inv (ht : WadHashtable) :
    ∀ (todo done : List WadChunk) (its : List (Str × WadTreeItem)),
      buildInv ht done its →
      (∀ d ∈ done, ∀ e ∈ todo, ¬ chainLeq (chunkComps d ht) (chunkComps e ht)
        ∧ ¬ chainLeq (chunkComps e ht) (chunkComps d ht)) →
      List.Pairwise (fun a b => ¬ chainLeq (chunkComps a ht) (chunkComps b ht)
        ∧ ¬ chainLeq (chunkComps b ht) (chunkComps a ht)) todo →
      (∀ e ∈ todo, lastOf (chunkComps e ht) ≠ []) →
      ∃ its2, buildChunks ht todo its = .ok its2 ∧ buildInv ht (done ++ todo) its2 := by
  intro todo
  induction todo with
  | nil =>
    intro done its hinv _ _ _
    exact ⟨its, rfl, by simpa using hinv⟩
  | cons e todo2 ih =>
    intro done its hinv hcross hpw hvalid
    have hfresh : ∀ d ∈ done, ¬ chainLeq (chunkComps d ht) (chunkComps e ht)
        ∧ ¬ chainLeq (chunkComps e ht) (chunkComps d ht) :=
      fun d hd => hcross d hd e (List.mem_cons_self _ _)
    obtain ⟨its1, hadd, hinv1⟩ :=
      buildInv_step ht done its e hinv (hvalid e (List.mem_cons_self _ _)) hfresh
    have hcross2 : ∀ d ∈ done ++ [e], ∀ f ∈ todo2,
        ¬ chainLeq (chunkComps d ht) (chunkComps f ht)
        ∧ ¬ chainLeq (chunkComps f ht) (chunkComps d ht) := by
      intro d hd f hf
      rcases List.mem_append.mp hd with hd | hd
      · exact hcross d hd f (List.mem_cons_of_mem _ hf)
      · rcases List.mem_singleton.mp hd with rfl
        exact (List.pairwise_cons.mp hpw).1 f hf
    obtain ⟨its2, hbuild, hinv2⟩ := ih (done ++ [e]) its1 hinv1 hcross2
      (List.pairwise_cons.mp hpw).2
      (fun f hf => hvalid f (List.mem_cons_of_mem _ hf))
    refine ⟨its2, ?_, ?_⟩
    · simp only [chunkComps] at hadd
      simp only [buildChunks, hadd]
      exact hbuild
    · have : done ++ [e] ++ todo2 = done ++ e :: todo2 := by simp
      rwa [this] at hinv2

/-! ## File counts are invariant under the sort pass -/

theorem map_congr_mem {α β : Type} (f g : α → β) :
    ∀ l : List α, (∀ a ∈ l, f a = g a) → l.map f = l.map g
  | [], _ => rfl
  | a :: rest, h => by
    rw [List.map_cons, List.map_cons, h a (List.mem_cons_self a rest),
      map_congr_mem f g rest fun b hb => h b (List.mem_cons_of_mem a hb)]

theorem countFileList_eq_sum (h : Nat) :
    ∀ l : List (Str × WadTreeItem),
      countFileList h l = (l.map (fun kv => countFileItem h kv.2)).sum
  | [] => rfl
  | (k, v) :: rest => by
    simp only [countFileList, List.map_cons, List.sum_cons]
    rw [countFileList_eq_sum h rest]

theorem countFileItem_sortItem_aux :
    ∀ (n : Nat) (v : WadTreeItem), sizeOf v ≤ n →
      ∀ h, countFileItem h (sortItem v) = countFileItem h v := by
  intro n
  induction n with
  | zero =>
    intro v hv
    exfalso
    cases v <;> simp at hv
  | succ n ih =>
    intro v hv h
    match v with
    | .file nm p ph => simp [sortItem]
    | .folder nm p its =>
      simp only [sortItem, countFileItem]
      rw [countFileList_eq_sum, List.Perm.sum_eq
        ((List.perm_insertionSort pairLe (sortItemsList its)).map _),
        ← countFileList_eq_sum, sortItemsList_eq_map, countFileList_eq_sum,
        List.map_map, countFileList_eq_sum]
      congr 1
      apply map_congr_mem
      intro kv hkv
      simp only [Function.comp]
      have hsz : sizeOf kv.2 ≤ n := by
        have h1 := List.sizeOf_lt_of_mem hkv
        obtain ⟨k0, v0⟩ := kv
        simp only [WadTreeItem.folder.sizeOf_spec, Prod.mk.sizeOf_spec] at h1 hv ⊢
        omega
      rw [ih kv.2 hsz h]

theorem countFileItem_sortItem (v : WadTreeItem) (h : Nat) :
    countFileItem h (sortItem v) = countFileItem h v :=
  countFileItem_sortItem_aux (sizeOf v) v le_rfl h

theorem countFileList_sortList (h : Nat) (l : List (Str × WadTreeItem)) :
    countFileList h (List.insertionSort pairLe (sortItemsList l)) = countFileList h l := by
  rw [countFileList_eq_sum, List.Perm.sum_eq
    ((List.perm_insertionSort pairLe (sortItemsList l)).map _),
    ← countFileList_eq_sum, sortItemsList_eq_map, countFileList_eq_sum,
    List.map_map, countFileList_eq_sum]
  congr 1
  apply map_congr_mem
  intro kv _
  simp only [Function.comp]
  rw [countFileItem_sortItem]

/-! ## Distinct hashes and the final count -/

theorem countP_hash_eq_one :
    ∀ (l : List WadChunk) (c : WadChunk), c ∈ l →
      List.Pairwise (fun a b => a.path_hash ≠ b.path_hash) l →
      l.countP (fun d => d.path_hash = c.path_hash) = 1 := by
  intro l
  induction l with
  | nil => intro c hc; simp at hc
  | cons a l2 ih =>
    intro c hc hpw
    rcases List.mem_cons.mp hc with rfl | hc2
    · rw [List.countP_cons]
      have hz : l2.countP (fun d => decide (d.path_hash = c.path_hash)) = 0 := by
        rw [List.countP_eq_zero]
        intro d hd
        simp only [decide_eq_true_eq]
        exact fun he => ((List.pairwise_cons.mp hpw).1 d hd) he.symm
      simp [hz]
    · rw [List.countP_cons]
      have hne : a.path_hash ≠ c.path_hash := (List.pairwise_cons.mp hpw).1 c hc2
      rw [ih c hc2 (List.pairwise_cons.mp hpw).2]
      simp [hne]

theorem pairwise_hash_ne (ht : WadHashtable) (chunks : List WadChunk)
    (hfree : List.Pairwise (fun a b => ¬ chainLeq (chunkComps a ht) (chunkComps b ht)
      ∧ ¬ chainLeq (chunkComps b ht) (chunkComps a ht)) chunks) :
    List.Pairwise (fun a b : WadChunk => a.path_hash ≠ b.path_hash) chunks := by
  refine hfree.imp ?_
  intro a b hab he
  apply hab.1
  have : chunkComps a ht = chunkComps b ht := by
    unfold chunkComps resolve_chunk_path
    rw [he]
  rw [this]
  exact chainLeq_refl _

/-- C1 amended: if every chunk's resolved path has a nonempty final
component and no chunk's resolved component chain is an initial segment of
another's (which also rules out equal hashes), the build succeeds and
every input chunk corresponds to exactly one File node carrying that
chunk's `path_hash`. -/
theorem c1_build_all_chunks (chunks : List WadChunk) (wid : Nat) (wp : Str)
    (ht : WadHashtable)
    (hvalid : ∀ c ∈ chunks, lastOf (chunkComps c ht) ≠ [])
    (hfree : List.Pairwise (fun a b => ¬ chainLeq (chunkComps a ht) (chunkComps b ht)
      ∧ ¬ chainLeq (chunkComps b ht) (chunkComps a ht)) chunks) :
    ∃ t, from_wad chunks wid wp ht = .ok t ∧
      ∀ c ∈ chunks, countFileList c.path_hash t.items = 1 := by
  obtain ⟨its2, hbuild, hinv⟩ :=
    buildChunks_inv ht chunks [] [] (buildInv_nil ht) (by simp) hfree hvalid
  refine ⟨sort_parent_items
    { wad_id := wid, wad_path := wp, items := its2, selected_items := [] }, ?_, ?_⟩
  · simp only [from_wad, hbuild]
  · intro c hc
    show countFileList c.path_hash (List.insertionSort pairLe (sortItemsList its2)) = 1
    rw [countFileList_sortList, hinv.2.2.2 c.path_hash]
    simp only [List.nil_append]
    exact countP_hash_eq_one chunks c hc (pairwise_hash_ne ht chunks hfree)

/-- Witness for the amended C1: two chunks resolving to `"a"` and `"b/c"`. -/
theorem c1_build_all_chunks_witness :
    (∀ c ∈ [WadChunk.mk 1, WadChunk.mk 2],
      lastOf (chunkComps c [(1, ['a']), (2, ['b', '/', 'c'])]) ≠ []) ∧
    (List.Pairwise (fun a b =>
      ¬ chainLeq (chunkComps a [(1, ['a']), (2, ['b', '/', 'c'])])
          (chunkComps b [(1, ['a']), (2, ['b', '/', 'c'])])
      ∧ ¬ chainLeq (chunkComps b [(1, ['a']), (2, ['b', '/', 'c'])])
          (chunkComps a [(1, ['a']), (2, ['b', '/', 'c'])]))
      [WadChunk.mk 1, WadChunk.mk 2]) ∧
    (∃ t, from_wad [WadChunk.mk 1, WadChunk.mk 2] 0 [] [(1, ['a']), (2, ['b', '/', 'c'])]
        = .ok t ∧
      ∀ c ∈ [WadChunk.mk 1, WadChunk.mk 2],
        countFileList c.path_hash t.items = 1) :=
  ⟨by decide, by decide,
    c1_build_all_chunks [⟨1⟩, ⟨2⟩] 0 [] [(1, ['a']), (2, ['b', '/', 'c'])]
      (by decide) (by decide)⟩

/-! ## Splitting and joining path strings -/

theorem splitSlash_append (a b : Str) :
    splitSlash (a ++ '/' :: b) = splitSlash a ++ splitSlash b := by
  induction a with
  | nil =>
    cases hb : splitSlash b with
    | nil => exact absurd hb (splitSlash_ne_nil b)
    | cons s ss => simp [splitSlash, hb]
  | cons c a ih =>
    rw [List.cons_append]
    cases hsa : splitSlash a with
    | nil => exact absurd hsa (splitSlash_ne_nil a)
    | cons s ss =>
      simp only [splitSlash, ih, hsa, List.cons_append]
      by_cases hc : c = '/'
      · simp [hc]
      · simp [hc]

theorem splitSlash_no_slash : ∀ (s x : Str), x ∈ splitSlash s → '/' ∉ x := by
  intro s
  induction s with
  | nil =>
    intro x hx
    simp [splitSlash] at hx
    subst hx
    simp
  | cons c rest ih =>
    intro x hx
    cases hsr : splitSlash rest with
    | nil => exact absurd hsr (splitSlash_ne_nil rest)
    | cons s ss =>
      have ihm : ∀ y ∈ s :: ss, '/' ∉ y := fun y hy => ih y (by rw [hsr]; exact hy)
      simp only [splitSlash, hsr] at hx
      by_cases hc : c = '/'
      · rw [if_pos hc] at hx
        rcases List.mem_cons.mp hx with rfl | hx2
        · simp
        · exact ihm x hx2
      · rw [if_neg hc] at hx
        rcases List.mem_cons.mp hx with rfl | hx2
        · intro hmem
          rcases List.mem_cons.mp hmem with h | h
          · exact hc h.symm
          · exact ihm s (List.mem_cons_self s ss) h
        · exact ihm x (List.mem_cons_of_mem s hx2)

theorem splitSlash_foldl (cs : List Str) :
    ∀ pp : Str, (∀ x ∈ cs, '/' ∉ x) →
      splitSlash (List.foldl (joinPath false) pp cs) = splitSlash pp ++ cs := by
  induction cs with
  | nil => intro pp _; simp
  | cons k cs2 ih =>
    intro pp hsf
    rw [List.foldl_cons]
    have hjoin : joinPath false pp k = pp ++ '/' :: k := rfl
    rw [hjoin, ih (pp ++ '/' :: k) (fun x hx => hsf x (List.mem_cons_of_mem _ hx)),
      splitSlash_append, splitSlash_of_no_slash k (hsf k (List.mem_cons_self _ _))]
    simp

/-- The full path of the node reached from a parent (`isRoot`, `pp`) by a
nonempty key chain: the `/`-join of the chain's components onto the
parent's path, the root contributing nothing. -/
def chainPath (isRoot : Bool) (pp : Str) : List Str → Str
  | [] => pp
  | c1 :: cs2 => List.foldl (joinPath false) (joinPath isRoot pp c1) cs2

theorem chainPath_single (isRoot : Bool) (pp k : Str) :
    chainPath isRoot pp [k] = joinPath isRoot pp k := rfl

theorem chainPath_cons (isRoot : Bool) (pp k : Str) {cs : List Str} (h : cs ≠ []) :
    chainPath isRoot pp (k :: cs) = chainPath false (joinPath isRoot pp k) cs := by
  cases cs with
  | nil => exact absurd rfl h
  | cons c1 cs2 => rfl

/-- Splitting the path of a chain hanging off the root recovers exactly
the chain, provided its components are separator-free (they always are:
they come from `split('/')`). -/
theorem splitSlash_chainPath_root (cs : List Str) (hne : cs ≠ [])
    (hsf : ∀ x ∈ cs, '/' ∉ x) :
    splitSlash (chainPath true [] cs) = cs := by
  cases cs with
  | nil => exact absurd rfl hne
  | cons c1 cs2 =>
    show splitSlash (List.foldl (joinPath false) (joinPath true [] c1) cs2) = c1 :: cs2
    have h1 : joinPath true [] c1 = c1 := rfl
    rw [h1, splitSlash_foldl cs2 c1 (fun x hx => hsf x (List.mem_cons_of_mem _ hx)),
      splitSlash_of_no_slash c1 (hsf c1 (List.mem_cons_self _ _))]
    rfl

/-! ## The goodness invariant: names, paths and keys agree -/

mutual

/-- The child stored under key `k` of a parent (`isRoot`, path `pp`) is
named `k`, carries path `joinPath isRoot pp k`, has no separator in its
name, and its own children are good relative to it (a folder is never the
root). -/
def goodItem (isRoot : Bool) (pp k : Str) : WadTreeItem → Prop
  | .file n p _ => n = k ∧ p = joinPath isRoot pp k ∧ '/' ∉ k
  | .folder n p its =>
    n = k ∧ p = joinPath isRoot pp k ∧ '/' ∉ k ∧ goodList false p its

/-- Every entry of the child list is good and keys are pairwise distinct. -/
def goodList (isRoot : Bool) (pp : Str) : List (Str × WadTreeItem) → Prop
  | [] => True
  | (k, v) :: rest =>
    goodItem isRoot pp k v ∧ findByKey rest k = none ∧ goodList isRoot pp rest

end

theorem goodList_find : ∀ (l : List (Str × WadTreeItem)) (isRoot : Bool)
    (pp k : Str) (v : WadTreeItem),
    goodList isRoot pp l → findByKey l k = some v → goodItem isRoot pp k v := by
  intro l
  induction l with
  | nil => intro isRoot pp k v _ hf; simp [findByKey] at hf
  | cons kv rest ih =>
    intro isRoot pp k v hg hf
    obtain ⟨k0, w⟩ := kv
    obtain ⟨hgi, _, hgrest⟩ := hg
    by_cases h0 : k0 = k
    · subst h0
      rw [findByKey, if_pos rfl] at hf
      injection hf with hf
      subst hf
      exact hgi
    · rw [findByKey, if_neg h0] at hf
      exact ih isRoot pp k v hgrest hf

theorem insert_good : ∀ (l : List (Str × WadTreeItem)) (isRoot : Bool)
    (pp k : Str) (v : WadTreeItem),
    goodList isRoot pp l → goodItem isRoot pp k v →
    goodList isRoot pp (insertItem l k v) := by
  intro l
  induction l with
  | nil => intro isRoot pp k v _ hv; exact ⟨hv, rfl, trivial⟩
  | cons kv rest ih =>
    intro isRoot pp k v hg hv
    obtain ⟨k0, w⟩ := kv
    obtain ⟨hgi, hkey, hgrest⟩ := hg
    by_cases h0 : k0 = k
    · subst h0
      simp only [insertItem, if_pos rfl]
      exact ⟨hv, hkey, hgrest⟩
    · simp only [insertItem, if_neg h0]
      refine ⟨hgi, ?_, ih isRoot pp k v hgrest hv⟩
      rw [findByKey_insert_ne rest k k0 v h0]
      exact hkey

theorem add_good : ∀ (comps : List Str) (isRoot : Bool) (pp : Str)
    (its : List (Str × WadTreeItem))
    (c : WadChunk) (its2 : List (Str × WadTreeItem)),
    goodList isRoot pp its → (∀ x ∈ comps, '/' ∉ x) →
    add_item_to_parent isRoot pp its comps c = .ok its2 →
    goodList isRoot pp its2 := by
  intro comps
  induction comps with
  | nil => intro isRoot pp its c its2 _ _ hok; simp [add_item_to_parent] at hok
  | cons comp rest ih =>
    intro isRoot pp its c its2 hgood hsf hok
    cases rest with
    | nil =>
      by_cases hleaf : comp = []
      · simp [add_item_to_parent, hleaf] at hok
      · simp only [add_item_to_parent, if_neg hleaf, Except.ok.injEq] at hok
        subst hok
        exact insert_good its isRoot pp comp _ hgood
          ⟨rfl, rfl, hsf comp (List.mem_cons_self _ _)⟩
    | cons r rs =>
      cases hfind : findByKey its comp with
      | some v =>
        cases v with
        | file n0 p0 h0 => simp [add_item_to_parent, hfind] at hok
        | folder fname fpath fitems =>
          cases hadd : add_item_to_parent false fpath fitems (r :: rs) c with
          | error e => simp [add_item_to_parent, hfind, hadd] at hok
          | ok fits2 =>
            simp only [add_item_to_parent, hfind, hadd, Except.ok.injEq] at hok
            subst hok
            obtain ⟨hn, hp, hsl, hginner⟩ :=
              goodList_find its isRoot pp comp _ hgood hfind
            have hginner2 := ih false fpath fitems c fits2 hginner
              (fun x hx => hsf x (List.mem_cons_of_mem _ hx)) hadd
            exact insert_good its isRoot pp comp _ hgood ⟨hn, hp, hsl, hginner2⟩
      | none =>
        cases hadd : add_item_to_parent false (joinPath isRoot pp comp) []
            (r :: rs) c with
        | error e => simp [add_item_to_parent, hfind, hadd] at hok
        | ok fits2 =>
          simp only [add_item_to_parent, hfind, hadd, Except.ok.injEq] at hok
          subst hok
          have hginner2 := ih false (joinPath isRoot pp comp) [] c fits2 trivial
            (fun x hx => hsf x (List.mem_cons_of_mem _ hx)) hadd
          exact insert_good its isRoot pp comp _ hgood
            ⟨rfl, rfl, hsf comp (List.mem_cons_self _ _), hginner2⟩

theorem buildChunks_good (ht : WadHashtable) :
    ∀ (todo : List WadChunk) (its its2 : List (Str × WadTreeItem)),
      goodList true [] its →
      buildChunks ht todo its = .ok its2 →
      goodList true [] its2 := by
  intro todo
  induction todo with
  | nil =>
    intro its its2 hg hok
    simp only [buildChunks, Except.ok.injEq] at hok
    subst hok
    exact hg
  | cons e todo2 ih =>
    intro its its2 hg hok
    cases hadd : add_item_to_parent true [] its
        (splitSlash (resolve_chunk_path e.path_hash ht)) e with
    | error err => simp [buildChunks, hadd] at hok
    | ok its1 =>
      simp only [buildChunks, hadd] at hok
      have hg1 : goodList true [] its1 :=
        add_good _ true [] its e its1 hg
          (fun x hx => splitSlash_no_slash _ x hx) hadd
      exact ih its1 its2 hg1 hok

theorem findByKey_eq_none_iff : ∀ (l : List (Str × WadTreeItem)) (k : Str),
    findByKey l k = none ↔ k ∉ l.map Prod.fst := by
  intro l k
  induction l with
  | nil => simp [findByKey]
  | cons kv rest ih =>
    obtain ⟨k0, w⟩ := kv
    by_cases h0 : k0 = k
    · subst h0
      simp [findByKey]
    · simp [findByKey, h0, ih, Ne.symm h0]

theorem goodList_iff : ∀ (l : List (Str × WadTreeItem)) (isRoot : Bool) (pp : Str),
    goodList isRoot pp l
      ↔ ((l.map Prod.fst).Nodup ∧ ∀ kv ∈ l, goodItem isRoot pp kv.1 kv.2) := by
  intro l
  induction l with
  | nil => intro isRoot pp; simp [goodList]
  | cons kv rest ih =>
    intro isRoot pp
    obtain ⟨k, v⟩ := kv
    constructor
    · rintro ⟨hgi, hkey, hrest⟩
      obtain ⟨hnd, hall⟩ := (ih isRoot pp).mp hrest
      refine ⟨?_, ?_⟩
      · rw [List.map_cons, List.nodup_cons]
        exact ⟨(findByKey_eq_none_iff rest k).mp hkey, hnd⟩
      · intro kv2 hkv2
        rcases List.mem_cons.mp hkv2 with rfl | h
        · exact hgi
        · exact hall kv2 h
    · rintro ⟨hnd, hall⟩
      rw [List.map_cons, List.nodup_cons] at hnd
      exact ⟨hall (k, v) (List.mem_cons_self _ _),
        (findByKey_eq_none_iff rest k).mpr hnd.1,
        (ih isRoot pp).mpr ⟨hnd.2, fun kv2 h => hall kv2 (List.mem_cons_of_mem _ h)⟩⟩

theorem goodList_perm {isRoot : Bool} {pp : Str} {l l2 : List (Str × WadTreeItem)}
    (hp : l.Perm l2) (hg : goodList isRoot pp l) : goodList isRoot pp l2 := by
  rw [goodList_iff] at hg ⊢
  obtain ⟨hnd, hall⟩ := hg
  exact ⟨((hp.map Prod.fst).nodup_iff).mp hnd,
    fun kv hkv => hall kv (hp.mem_iff.mpr hkv)⟩

theorem keys_sortItemsList (l : List (Str × WadTreeItem)) :
    (sortItemsList l).map Prod.fst = l.map Prod.fst := by
  rw [sortItemsList_eq_map, List.map_map]
  exact map_congr_mem _ _ l (fun a _ => rfl)

theorem sortItem_good_aux : ∀ (n : Nat) (v : WadTreeItem), sizeOf v ≤ n →
    ∀ (isRoot : Bool) (pp k : Str),
      goodItem isRoot pp k v → goodItem isRoot pp k (sortItem v) := by
  intro n
  induction n with
  | zero =>
    intro v hv
    exfalso
    cases v <;> simp at hv
  | succ n ih =>
    intro v hv isRoot pp k hg
    match v with
    | .file nm p ph =>
      simp only [sortItem]
      exact hg
    | .folder nm p its =>
      obtain ⟨hn, hp, hsl, hginner⟩ := hg
      simp only [sortItem]
      refine ⟨hn, hp, hsl, ?_⟩
      have hg1 : goodList false p (sortItemsList its) := by
        rw [goodList_iff]
        constructor
        · rw [keys_sortItemsList]
          exact ((goodList_iff its false p).mp hginner).1
        · intro kv hkv
          rw [sortItemsList_eq_map] at hkv
          rcases List.mem_map.mp hkv with ⟨⟨k0, v0⟩, hmem, heq⟩
          have hgv0 := ((goodList_iff its false p).mp hginner).2 (k0, v0) hmem
          have hsz : sizeOf v0 ≤ n := by
            have h1 := List.sizeOf_lt_of_mem hmem
            simp only [WadTreeItem.folder.sizeOf_spec, Prod.mk.sizeOf_spec] at h1 hv
            omega
          rw [← heq]
          exact ih v0 hsz false p k0 hgv0
      exact goodList_perm (List.perm_insertionSort pairLe (sortItemsList its)).symm hg1

theorem sortPairs_good (isRoot : Bool) (pp : Str) (l : List (Str × WadTreeItem))
    (hg : goodList isRoot pp l) :
    goodList isRoot pp (List.insertionSort pairLe (sortItemsList l)) := by
  have hg1 : goodList isRoot pp (sortItemsList l) := by
    rw [goodList_iff]
    refine ⟨by rw [keys_sortItemsList]; exact ((goodList_iff l isRoot pp).mp hg).1, ?_⟩
    intro kv hkv
    rw [sortItemsList_eq_map] at hkv
    rcases List.mem_map.mp hkv with ⟨⟨k0, v0⟩, hmem, heq⟩
    rw [← heq]
    exact sortItem_good_aux (sizeOf v0) v0 le_rfl isRoot pp k0
      (((goodList_iff l isRoot pp).mp hg).2 (k0, v0) hmem)
  exact goodList_perm (List.perm_insertionSort pairLe (sortItemsList l)).symm hg1

/-! ## Round-trip: a file's path walks back to the file -/

theorem roundTrip_aux : ∀ (n : Nat) (its : List (Str × WadTreeItem))
    (isRoot : Bool) (pp : Str),
    sizeOf its ≤ n →
    goodList isRoot pp its →
    ∀ f ∈ fileNodesList its,
      ∃ cs, cs ≠ [] ∧ (∀ x ∈ cs, '/' ∉ x) ∧
        f.path = chainPath isRoot pp cs ∧ getAtChain its cs = some f := by
  intro n
  induction n with
  | zero =>
    intro its isRoot pp hsz
    exfalso
    cases its <;> simp at hsz
  | succ n ih =>
    intro its isRoot pp hsz hgood f hf
    cases its with
    | nil => simp [fileNodesList] at hf
    | cons kv rest =>
      obtain ⟨k, v⟩ := kv
      obtain ⟨hgi, hkey, hgrest⟩ := hgood
      simp only [fileNodesList] at hf
      rcases List.mem_append.mp hf with hf | hf
      · cases v with
        | file nm p ph =>
          simp only [fileNodesItem] at hf
          rcases List.mem_singleton.mp hf with rfl
          obtain ⟨hn, hp, hsl⟩ := hgi
          refine ⟨[k], by simp, ?_, ?_, ?_⟩
          · intro x hx
            rcases List.mem_singleton.mp hx with rfl
            exact hsl
          · rw [chainPath_single]
            exact hp
          · rw [getAtChain_single]
            simp [findByKey]
        | folder fn fp fits =>
          simp only [fileNodesItem] at hf
          obtain ⟨hn, hp, hsl, hginner⟩ := hgi
          have hszrec : sizeOf fits ≤ n := by
            simp only [List.cons.sizeOf_spec, Prod.mk.sizeOf_spec,
              WadTreeItem.folder.sizeOf_spec] at hsz
            omega
          obtain ⟨cs2, hcs2ne, hcs2sl, hpath, hget⟩ :=
            ih fits false fp hszrec hginner f hf
          refine ⟨k :: cs2, by simp, ?_, ?_, ?_⟩
          · intro x hx
            rcases List.mem_cons.mp hx with rfl | hx2
            · exact hsl
            · exact hcs2sl x hx2
          · rw [chainPath_cons isRoot pp k hcs2ne, ← hp]
            exact hpath
          · rw [getAtChain_cons_folder (by simp [findByKey] :
              findByKey ((k, WadTreeItem.folder fn fp fits) :: rest) k
                = some (WadTreeItem.folder fn fp fits)) hcs2ne]
            exact hget
      · have hszrec : sizeOf rest ≤ n := by
          simp only [List.cons.sizeOf_spec] at hsz
          omega
        obtain ⟨cs, hcsne, hcssl, hpath, hget⟩ :=
          ih rest isRoot pp hszrec hgrest f hf
        refine ⟨cs, hcsne, hcssl, hpath, ?_⟩
        cases cs with
        | nil => exact absurd rfl hcsne
        | cons k0 cs2 =>
          have hfk : findByKey rest k0 ≠ none := by
            intro hnone2
            cases cs2 with
            | nil =>
              rw [getAtChain_single, hnone2] at hget
              exact Option.noConfusion hget
            | cons d ds =>
              rw [getAtChain_cons_none hnone2 (by simp)] at hget
              exact Option.noConfusion hget
          have hk0 : k0 ≠ k := fun he => hfk (he ▸ hkey)
          have hcongr : findByKey ((k, v) :: rest) k0 = findByKey rest k0 := by
            simp [findByKey, Ne.symm hk0]
          rw [getAtChain_cons_congr rest ((k, v) :: rest) k0 cs2 hcongr]
          exact hget

/-! ## Claim C6: the path round-trip -/

/-- C6: for every File node of a tree built by `from_wad`, splitting its
`path()` on `/` and walking the tree from the root by those components in
order reaches exactly that node. -/
theorem c6_round_trip (chunks : List WadChunk) (wid : Nat) (wp : Str)
    (ht : WadHashtable) (t : WadTree)
    (hok : from_wad chunks wid wp ht = .ok t) :
    ∀ f ∈ fileNodesList t.items, getAtChain t.items (splitSlash f.path) = some f := by
  unfold from_wad at hok
  cases hb : buildChunks ht chunks [] with
  | error e => rw [hb] at hok; exact absurd hok (by simp)
  | ok its2 =>
    rw [hb] at hok
    injection hok with hok
    subst hok
    have hg2 : goodList true [] its2 := buildChunks_good ht chunks [] its2 trivial hb
    have hg3 := sortPairs_good true [] its2 hg2
    intro f hf
    obtain ⟨cs, hcsne, hcssl, hpath, hget⟩ :=
      roundTrip_aux (sizeOf (List.insertionSort pairLe (sortItemsList its2)))
        (List.insertionSort pairLe (sortItemsList its2)) true [] le_rfl hg3 f hf
    show getAtChain (List.insertionSort pairLe (sortItemsList its2))
        (splitSlash f.path) = some f
    rw [hpath, splitSlash_chainPath_root cs hcsne hcssl]
    exact hget

/-- Witness for C6: one chunk resolving to `"/b"` — a file below a
root-level folder named `""`, whose path `"/b"` still walks back to it. -/
theorem c6_round_trip_witness :
    from_wad [WadChunk.mk 1] 0 [] [(1, ['/', 'b'])]
      = .ok { wad_id := 0, wad_path := [],
              items := [([], .folder [] []
                [(['b'], .file ['b'] ['/', 'b'] 1)])],
              selected_items := [] } ∧
    (∀ f ∈ fileNodesList [(([] : Str), WadTreeItem.folder [] []
        [(['b'], WadTreeItem.file ['b'] ['/', 'b'] 1)])],
      getAtChain [(([] : Str), WadTreeItem.folder [] []
        [(['b'], WadTreeItem.file ['b'] ['/', 'b'] 1)])]
        (splitSlash f.path) = some f) := by
  have hok : from_wad [WadChunk.mk 1] 0 [] [(1, ['/', 'b'])]
      = .ok { wad_id := 0, wad_path := [],
              items := [([], .folder [] []
                [(['b'], .file ['b'] ['/', 'b'] 1)])],
              selected_items := [] } := by
    simp [from_wad, buildChunks, add_item_to_parent, resolve_chunk_path, htGet,
      splitSlash, insertItem, joinPath, findByKey, sort_parent_items, sortItemsList,
      sortItem, List.insertionSort, List.orderedInsert]
  exact ⟨hok, c6_round_trip [⟨1⟩] 0 [] [(1, ['/', 'b'])] _ hok⟩
